import Mathlib

/-!
Verification of the snarkOS validator core against its specification.

The development shallowly embeds the Rust source:
* `Committee` with its stake thresholds (`src/node/narwhal/src/helpers/committee.rs`),
* the certificate `DAG` with `insert`/`commit` (`src/node/narwhal/src/helpers/dag.rs`),
* the worker mempool ingestion paths (`src/node/narwhal/src/worker.rs`),
* the BFT execution bridge `handle_consensus_output` (`src/node/bft-consensus/src/lib.rs`),
* the validator `new_block` handler (`src/node/src/validator/router.rs`).

Machine integers are modelled as `Nat` with explicit saturating / checked
operations at the u64 bound.  External collaborators (the ledger service, the
Aleo consensus facade) are modelled as oracles: records of response functions.
-/

namespace SnarkOS

/-- The largest value representable by a Rust `u64`. -/
def U64MAX : Nat := 2 ^ 64 - 1

/-- Rust `u64::saturating_add`. -/
def satAdd (a b : Nat) : Nat := min (a + b) U64MAX

/-- Rust `u64::saturating_mul`. -/
def satMul (a b : Nat) : Nat := min (a * b) U64MAX

/-- Rust `u64::checked_add`: `none` exactly when the sum overflows. -/
def checkedAdd (a b : Nat) : Option Nat :=
  if a + b ≤ U64MAX then some (a + b) else none

/-- Committee member addresses (`Address<N>`), opaque identities. -/
abbrev Addr := Nat

/-- `Committee<N>` from `helpers/committee.rs`: a round number and an ordered
map of `address -> stake` (the `IndexMap` is embedded as an association list
in insertion order). -/
structure Committee where
  round : Nat
  members : List (Addr × Nat)
deriving Repr, DecidableEq

namespace Committee

/-- `Committee::new`: rejects a zero round and fewer than 4 members. -/
def new (round : Nat) (members : List (Addr × Nat)) : Option Committee :=
  if 0 < round ∧ 4 ≤ members.length then some ⟨round, members⟩ else none

/-- `Committee::is_committee_member`. -/
def is_committee_member (c : Committee) (a : Addr) : Bool :=
  c.members.any (fun p => p.1 == a)

/-- `Committee::get_stake`: the stake of an address, defaulting to 0. -/
def get_stake (c : Committee) (a : Addr) : Nat :=
  ((c.members.find? (fun p => p.1 == a)).map Prod.snd).getD 0

/-- The accumulation loop inside `Committee::total_stake`: checked addition
of every member's stake, failing on u64 overflow. -/
def totalStakeAux : List (Addr × Nat) → Nat → Option Nat
  | [], acc => some acc
  | (_, s) :: rest, acc =>
    match checkedAdd acc s with
    | some acc' => totalStakeAux rest acc'
    | none => none

/-- `Committee::total_stake`. -/
def total_stake (c : Committee) : Option Nat :=
  totalStakeAux c.members 0

/-- `Committee::availability_threshold`:
`Ok(self.total_stake()?.saturating_add(2) / 3)`. -/
def availability_threshold (c : Committee) : Option Nat :=
  c.total_stake.map (fun s => satAdd s 2 / 3)

/-- `Committee::quorum_threshold`:
`Ok(self.total_stake()?.saturating_mul(2) / 3 + 1)`. -/
def quorum_threshold (c : Committee) : Option Nat :=
  c.total_stake.map (fun s => satMul s 2 / 3 + 1)

end Committee

/-- The 4-member, stake-1-each committee from the spec's boundary behaviour. -/
def committeeFour : Committee := ⟨1, [(0, 1), (1, 1), (2, 1), (3, 1)]⟩

/-- A legal committee (total stake `2^63 + 1`, no overflow in `total_stake`)
on which the saturating multiplication inside `quorum_threshold` saturates. -/
def committeeHuge : Committee :=
  ⟨1, [(0, 2 ^ 63 - 2), (1, 1), (2, 1), (3, 1)]⟩

/-- A committee with total stake 5, on which `(S+2)/3` rounds down. -/
def committeeFive : Committee := ⟨1, [(0, 2), (1, 1), (2, 1), (3, 1)]⟩

/-- Ceiling division on naturals, used to state the spec's `⌈x/y⌉`. -/
def ceilDiv (a b : Nat) : Nat := (a + b - 1) / b

/-! ### The certificate DAG (`helpers/dag.rs`)

`BatchCertificate<N>` is opaque to the DAG except for its round, its author
and its certificate ID, so it is embedded as that triple.  The
`BTreeMap<u64, _>` keyed by round is an association list kept sorted by key;
the inner `HashMap<Address<N>, _>` is an association list with
replace-on-insert semantics. -/

/-- The part of `BatchCertificate<N>` the DAG reads: round, author, ID. -/
structure Cert where
  round : Nat
  author : Addr
  cid : Nat
deriving Repr, DecidableEq

/-- Association-list lookup by key (the semantics of `HashMap::get` /
`BTreeMap::get` on a duplicate-free list). -/
def alookup {β : Type} (l : List (Nat × β)) (k : Nat) : Option β :=
  (l.find? (fun p => p.1 == k)).map Prod.snd

/-- `HashMap::insert`: replace the value at an existing key, otherwise add
the binding. -/
def ainsert {β : Type} (k : Nat) (v : β) : List (Nat × β) → List (Nat × β)
  | [] => [(k, v)]
  | (k', v') :: rest =>
    if k' = k then (k, v) :: rest else (k', v') :: ainsert k v rest

/-- The author-indexed map of certificates for one round. -/
abbrev AuthorMap := List (Addr × Cert)

/-- `HashMap::remove(&author)` on an author map. -/
def mapRemove (a : Addr) (m : AuthorMap) : AuthorMap :=
  m.filter (fun p => !(p.1 == a))

/-- The round-indexed graph (`BTreeMap<u64, HashMap<Address, Cert>>`). -/
abbrev Graph := List (Nat × AuthorMap)

/-- `BTreeMap::entry(round).or_default().insert(author, cert)`: the graph is
kept sorted by round; a missing round is created at its sorted position. -/
def graphInsert (r : Nat) (a : Addr) (c : Cert) : Graph → Graph
  | [] => [(r, [(a, c)])]
  | (r', m) :: rest =>
    if r = r' then (r', ainsert a c m) :: rest
    else if r < r' then (r, [(a, c)]) :: (r', m) :: rest
    else (r', m) :: graphInsert r a c rest

/-- `DAG<N>` from `helpers/dag.rs`. -/
structure DAG where
  graph : Graph
  last_committed_round : Nat
  last_committed_authors : List (Addr × Nat)
deriving Repr, DecidableEq

namespace DAG

/-- `DAG::new`. -/
def new : DAG := ⟨[], 0, []⟩

/-- `DAG::insert`: store the certificate under `(round, author)`,
unconditionally. -/
def insert (d : DAG) (c : Cert) : DAG :=
  { d with graph := graphInsert c.round c.author c d.graph }

end DAG

/-- The author map of a given round, `self.graph.get(&round)`. -/
def roundMap (d : DAG) (r : Nat) : Option AuthorMap :=
  alookup d.graph r

/-- The certificate stored for `(round, author)`
(`DAG::get_certificate_for_round_with_author`). -/
def DAG.get_certificate_for_round_with_author (d : DAG) (r : Nat) (a : Addr) :
    Option Cert :=
  (roundMap d r).bind (fun m => alookup m a)

/-- `last_committed_authors.entry(author).and_modify(max).or_insert(round)`:
record `author` as committed at `r`, keeping the maximum round per author. -/
def lcaInsert (a : Addr) (r : Nat) : List (Addr × Nat) → List (Addr × Nat)
  | [] => [(a, r)]
  | (b, v) :: rest =>
    if b = a then (b, if v < r then r else v) :: rest
    else (b, v) :: lcaInsert a r rest

/-- `.values().max()` over the committed-authors map (the map is non-empty
at every use site, so the default 0 is never taken). -/
def maxValues (l : List (Addr × Nat)) : Nat :=
  (l.map Prod.snd).foldr max 0

/-- `DAG::commit`: record the author, recompute `last_committed_round`,
garbage-collect old rounds, then purge the author from all retained rounds
at or below the committed round (dropping rounds that become empty). -/
def DAG.commit (d : DAG) (c : Cert) (max_gc_rounds : Nat) : DAG :=
  let lca := lcaInsert c.author c.round d.last_committed_authors
  let lcr := maxValues lca
  let g1 := d.graph.filter (fun p => decide (lcr < p.1 + max_gc_rounds))
  let g2 := g1.filterMap (fun p =>
    if c.round < p.1 then some p
    else
      let m := mapRemove c.author p.2
      if m.isEmpty then none else some (p.1, m))
  ⟨g2, lcr, lca⟩

/-- Reachability of a DAG state by any sequence of `insert` / `commit`
operations from `DAG::new`. -/
inductive Reachable : DAG → Prop
  | init : Reachable DAG.new
  | insert (d : DAG) (c : Cert) : Reachable d → Reachable (d.insert c)
  | commit (d : DAG) (c : Cert) (gc : Nat) :
      Reachable d → Reachable (d.commit c gc)

/-! ### The worker mempool (`worker.rs`)

Transmission IDs and payloads are opaque.  The `Ready` queue, the proposed
batch and the worker `Storage` are missing from the sources (only
`helpers/committee.rs` and `helpers/dag.rs` are present under `helpers/`);
per the spec they are ID-keyed collections of transmissions, embedded as
association lists with `IndexMap` insert semantics.  The ledger service is
an oracle of response functions. -/

/-- Transmission identifiers (`TransmissionID<N>`). -/
abbrev TId := Nat

/-- Transmission payloads (`Transmission<N>`), opaque. -/
abbrev Tm := Nat

/-- The `Ledger` (ledger service) collaborator as consumed by the worker:
`contains_transmission`, `check_solution_basic`, `check_transaction_basic`.
The responses are modelled as arbitrary functions of the query. -/
structure LedgerSvc where
  containsTransmission : TId → Bool
  checkSolutionOk : TId → Tm → Bool
  checkTransactionOk : TId → Tm → Bool

/-- Modelled from the spec: the state owned by one worker.  `Ready`,
`ProposedBatch`, `Storage` and `Pending` are external to the given sources;
the spec describes them as the in-memory ready queue, the currently-proposed
batch, the storage of sealed batches, and the pending-request queue. -/
structure WorkerState where
  ready : List (TId × Tm)
  proposedBatch : Option (List (TId × Tm))
  storage : List (TId × Tm)
  pending : List TId
deriving Repr, DecidableEq

namespace Worker

/-- `Worker::contains_transmission`: the transmission ID exists in the ready
queue, the proposed batch, storage, or the ledger (checked in that order). -/
def contains_transmission (L : LedgerSvc) (w : WorkerState) (id : TId) : Bool :=
  (alookup w.ready id).isSome
    || (match w.proposedBatch with
        | some p => (alookup p id).isSome
        | none => false)
    || (alookup w.storage id).isSome
    || L.containsTransmission id

/-- `Worker::get_transmission`: ready queue, then storage, then the proposed
batch; the ledger is never consulted. -/
def get_transmission (w : WorkerState) (id : TId) : Option Tm :=
  match alookup w.ready id with
  | some t => some t
  | none =>
    match alookup w.storage id with
    | some t => some t
    | none =>
      match w.proposedBatch with
      | some p => alookup p id
      | none => none

/-- `Worker::process_transmission_from_peer`: insert into the ready queue
iff the four-view check fails to find the ID. -/
def process_transmission_from_peer (L : LedgerSvc) (w : WorkerState)
    (id : TId) (t : Tm) : WorkerState :=
  if contains_transmission L w id then w
  else { w with ready := ainsert id t w.ready }

/-- `Worker::process_unconfirmed_solution`: drop the pending entry, bail if
the ID exists in any of the four views, bail if `check_solution_basic`
fails, otherwise insert into the ready queue.  The returned `Bool` is the
`Result`: `false` is the error case. -/
def process_unconfirmed_solution (L : LedgerSvc) (w : WorkerState)
    (id : TId) (t : Tm) : WorkerState × Bool :=
  let w1 := { w with pending := w.pending.erase id }
  if contains_transmission L w1 id then (w1, false)
  else if L.checkSolutionOk id t then
    ({ w1 with ready := ainsert id t w1.ready }, true)
  else (w1, false)

/-- `Worker::process_unconfirmed_transaction`: as for solutions, with
`check_transaction_basic` as the validator. -/
def process_unconfirmed_transaction (L : LedgerSvc) (w : WorkerState)
    (id : TId) (t : Tm) : WorkerState × Bool :=
  let w1 := { w with pending := w.pending.erase id }
  if contains_transmission L w1 id then (w1, false)
  else if L.checkTransactionOk id t then
    ({ w1 with ready := ainsert id t w1.ready }, true)
  else (w1, false)

end Worker

/-! ### The execution bridge (`bft-consensus/src/lib.rs`)

`BftExecutionState::handle_consensus_output` consumes a `ConsensusOutput`
and drives the Aleo consensus facade.  Transactions and blocks are opaque;
the facade's responses (`add_unconfirmed_transaction`,
`propose_next_block`, `check_next_block`, `advance_to_next_block`) are an
oracle.  The outcome records which effects the run performed. -/

/-- Transactions carried inside batches, opaque. -/
abbrev Tx := Nat

/-- Ledger blocks, opaque. -/
abbrev Block := Nat

/-- The Aleo consensus facade as consumed by the execution bridge. -/
structure AleoFacade where
  addUnconfirmedOk : Tx → Bool
  proposeNextBlock : Option Block
  checkNextOk : Block → Bool
  advanceOk : Block → Bool

/-- The observable effects of one `handle_consensus_output` run. -/
structure ExecOutcome where
  validTxs : List Tx
  proposed : Option Block
  clearedMemoryPool : Bool
  advanceCalled : Bool
  advanced : Bool
  broadcast : Option Block
deriving Repr, DecidableEq

/-- The run that performs no effect at all. -/
def noOutcome : ExecOutcome := ⟨[], none, false, false, false, none⟩

/-- The transaction-collection and mempool-admission loops of
`handle_consensus_output`: every transaction of every batch is offered to
`add_unconfirmed_transaction`; the result is the list of admitted ones
(`num_valid_txs` is its length). -/
def collectValidTxs (K : AleoFacade) (batches : List (List (List Tx))) :
    List Tx :=
  (batches.flatten.flatten).filter K.addUnconfirmedOk

/-- `BftExecutionState::handle_consensus_output`.  `batches` is
`consensus_output.batches`: per sub-DAG entry, a list of batches, each a
list of transactions.  The leader comparison is
`self.primary_pub != *leader`. -/
def handle_consensus_output (K : AleoFacade) (primaryPub leaderAuthor : Addr)
    (batches : List (List (List Tx))) : ExecOutcome :=
  if batches.isEmpty then noOutcome
  else if primaryPub ≠ leaderAuthor then noOutcome
  else
    let validTxs := collectValidTxs K batches
    if validTxs.isEmpty then { noOutcome with validTxs := validTxs }
    else
      match K.proposeNextBlock with
      | none => { noOutcome with validTxs := validTxs }
      | some b =>
        if K.checkNextOk b then
          if K.advanceOk b then
            { validTxs := validTxs, proposed := some b,
              clearedMemoryPool := false, advanceCalled := true,
              advanced := true, broadcast := some b }
          else
            { validTxs := validTxs, proposed := some b,
              clearedMemoryPool := true, advanceCalled := true,
              advanced := false, broadcast := none }
        else
          { validTxs := validTxs, proposed := some b,
            clearedMemoryPool := true, advanceCalled := false,
            advanced := false, broadcast := none }

/-! ### The validator `new_block` handler (`src/validator/router.rs`)

A non-leader validator receiving `NewBlock` first runs `check_next_block`;
when it holds a previous `ConsensusOutput` it recomputes the expected
transaction order and compares it positionally (via `zip`) with the block's
order; on success it calls `advance_to_next_block`.  `check_next_block` and
`advance_to_next_block` results are oracle booleans; the ledger height is
carried explicitly and bumped exactly by a successful advance. -/

/-- Modelled from the spec: `sort_transactions` of the `bft-consensus`
crate is not under the given sources; the spec calls it the shared
canonical sort of transaction IDs, modelled as sorting ascending. -/
def insertSorted (x : Nat) : List Nat → List Nat
  | [] => [x]
  | y :: ys => if x ≤ y then x :: y :: ys else y :: insertSorted x ys

/-- Modelled from the spec: the canonical transaction sort. -/
def sort_transactions (l : List Nat) : List Nat :=
  l.foldr insertSorted []

/-- The expected transaction order recomputed by `Validator::new_block`:
the previous consensus output's transaction IDs (a `HashSet`, hence
deduplicated), intersected with the IDs present in the block, then
canonically sorted.  `batched_transactions` of the `bft-consensus` crate is
not under the given sources; per the spec it yields the transaction IDs of
the batched transmissions of the consensus output, modelled as the list
`lastIds`. -/
def expectedTxs (lastIds blockTxs : List Nat) : List Nat :=
  sort_transactions ((lastIds.filter (fun i => blockTxs.contains i)).dedup)

/-- The observable effects of one `Validator::new_block` run: whether
`advance_to_next_block` was invoked, the handler's return value, and the
resulting ledger height. -/
structure NewBlockOutcome where
  advanceCalled : Bool
  accepted : Bool
  height : Nat
deriving Repr, DecidableEq

/-- `Validator::new_block`. -/
def new_block (checkNextOk : Bool) (lastOutput : Option (List Nat))
    (blockTxs : List Nat) (advanceOk : Bool) (height : Nat) :
    NewBlockOutcome :=
  if checkNextOk = false then ⟨false, true, height⟩
  else
    let orderBad :=
      match lastOutput with
      | some lastIds =>
        (blockTxs.zip (expectedTxs lastIds blockTxs)).any
          (fun p => !(p.1 == p.2))
      | none => false
    if orderBad then ⟨false, false, height⟩
    else if advanceOk then ⟨true, true, height + 1⟩
    else ⟨true, false, height⟩

/-! ### Concrete instances used by counterexamples and witnesses -/

/-- A certificate at round 3 by author 0. -/
def certA3 : Cert := ⟨3, 0, 100⟩

/-- A certificate at round 2 by author 1. -/
def certB2 : Cert := ⟨2, 1, 101⟩

/-- A certificate at round 4 by author 2. -/
def certC4 : Cert := ⟨4, 2, 102⟩

/-- A certificate authored by address 99, which is not a member of
`committeeFour`. -/
def cert99 : Cert := ⟨5, 99, 500⟩

/-- A DAG holding `certB2` at round 2 and `certA3` at round 3. -/
def dagTwo : DAG := ⟨[(2, [(1, certB2)]), (3, [(0, certA3)])], 0, []⟩

/-- The DAG of the spec's garbage-collection scenario: certificates at
rounds 2, 3 and 4. -/
def dagThree : DAG :=
  ((DAG.new.insert certB2).insert certA3).insert certC4

/-- A ledger service that holds nothing and rejects every validation. -/
def ledgerRejectAll : LedgerSvc :=
  ⟨fun _ => false, fun _ _ => false, fun _ _ => false⟩

/-- A ledger service whose confirmed transactions consist solely of
transmission ID 3. -/
def ledgerOnly3 : LedgerSvc :=
  ⟨fun i => i == 3, fun _ _ => true, fun _ _ => true⟩

/-- A worker with empty ready queue, no proposed batch, empty storage. -/
def workerEmpty : WorkerState := ⟨[], none, [], []⟩

/-! ## Committee threshold theorems (C1, C8) -/

/-- C1 (counterexample): the committee `committeeHuge` has total stake
`2^63 + 1` (no overflow in `total_stake`), yet
`availability_threshold + quorum_threshold = total_stake` — the claimed
strict inequality fails, because `quorum_threshold`'s `saturating_mul`
saturates. -/
theorem C1_counterexample :
    Committee.total_stake committeeHuge = some (2 ^ 63 + 1) ∧
    Committee.availability_threshold committeeHuge = some 3074457345618258603 ∧
    Committee.quorum_threshold committeeHuge = some 6148914691236517206 ∧
    ¬ (2 ^ 63 + 1 < 3074457345618258603 + 6148914691236517206) := by
  refine ⟨by decide, by decide, by decide, by decide⟩

/-- C1 (amended): for every committee whose total stake `S` succeeds and
satisfies `S ≤ 2^63` (so that saturation cannot lose the margin),
`availability_threshold + quorum_threshold > S`. -/
theorem C1_thresholds_exceed_total_stake (c : Committee) (s a q : Nat)
    (hs : c.total_stake = some s)
    (ha : c.availability_threshold = some a)
    (hq : c.quorum_threshold = some q)
    (hbound : s ≤ 2 ^ 63) : s < a + q := by
  simp only [Committee.availability_threshold, Committee.quorum_threshold, hs,
    Option.map_some', Option.some.injEq] at ha hq
  subst ha hq
  simp only [satAdd, satMul, U64MAX]
  omega

/-- C1 witness: the amended theorem applied to the 4-member, stake-1
committee (`S = 4`, availability 2, quorum 3). -/
theorem C1_witness : (4 : Nat) < 2 + 3 :=
  C1_thresholds_exceed_total_stake committeeFour 4 2 3 (by decide) (by decide)
    (by decide) (by decide)

/-- C8 (counterexample): for the committee with total stake `S = 5`,
`availability_threshold` returns `(5+2)/3 = 2` with rounding **down**,
while the claimed `⌈(S+2)/3⌉` is 3. -/
theorem C8_counterexample :
    Committee.total_stake committeeFive = some 5 ∧
    Committee.availability_threshold committeeFive = some 2 ∧
    ceilDiv (5 + 2) 3 = 3 ∧ (2 : Nat) ≠ 3 := by
  refine ⟨by decide, by decide, by decide, by decide⟩

/-- C8 (amended): when the saturating operations do not saturate,
`availability_threshold` returns `⌈S/3⌉` (that is, `⌊(S+2)/3⌋`) and
`quorum_threshold` returns `⌊2·S/3⌋ + 1`; in particular for the 4-member,
stake-1 committee the thresholds are 2 and 3. -/
theorem C8_threshold_formulas (c : Committee) (s : Nat)
    (hs : c.total_stake = some s)
    (h2 : s + 2 ≤ U64MAX) (h3 : s * 2 ≤ U64MAX) :
    c.availability_threshold = some (ceilDiv s 3) ∧
    c.quorum_threshold = some (s * 2 / 3 + 1) ∧
    Committee.availability_threshold committeeFour = some 2 ∧
    Committee.quorum_threshold committeeFour = some 3 := by
  refine ⟨?_, ?_, by decide, by decide⟩
  · simp [Committee.availability_threshold, hs, satAdd, Nat.min_eq_left h2,
      ceilDiv]
  · simp [Committee.quorum_threshold, hs, satMul, Nat.min_eq_left h3]

/-- C8 witness: the amended theorem applied to the total-stake-5
committee. -/
theorem C8_witness :
    Committee.availability_threshold committeeFive = some (ceilDiv 5 3) ∧
    Committee.quorum_threshold committeeFive = some (5 * 2 / 3 + 1) ∧
    Committee.availability_threshold committeeFour = some 2 ∧
    Committee.quorum_threshold committeeFour = some 3 :=
  C8_threshold_formulas committeeFive 5 (by decide) (by decide) (by decide)

/-! ## Association-list lemmas -/

theorem alookup_nil {β : Type} (k : Nat) : alookup ([] : List (Nat × β)) k = none := rfl

theorem alookup_cons {β : Type} (p : Nat × β) (l : List (Nat × β)) (k : Nat) :
    alookup (p :: l) k = if p.1 = k then some p.2 else alookup l k := by
  by_cases h : p.1 = k
  · simp [alookup, List.find?_cons, h]
  · simp [alookup, List.find?_cons, h]

theorem alookup_cons' {β : Type} (k : Nat) (v : β) (l : List (Nat × β))
    (k' : Nat) :
    alookup ((k, v) :: l) k' = if k = k' then some v else alookup l k' := by
  rw [alookup_cons]

theorem ainsert_cons {β : Type} (k : Nat) (v : β) (p : Nat × β)
    (l : List (Nat × β)) :
    ainsert k v (p :: l) =
      if p.1 = k then (k, v) :: l else p :: ainsert k v l := by
  rcases p with ⟨k', v'⟩
  rfl

theorem alookup_ainsert_self {β : Type} (k : Nat) (v : β) (l : List (Nat × β)) :
    alookup (ainsert k v l) k = some v := by
  induction l with
  | nil => simp [ainsert, alookup_cons]
  | cons p rest ih =>
    rw [ainsert_cons]
    by_cases h : p.1 = k
    · rw [if_pos h, alookup_cons, if_pos rfl]
    · rw [if_neg h, alookup_cons, if_neg h, ih]

theorem alookup_ainsert_ne {β : Type} (k : Nat) (v : β) (l : List (Nat × β))
    (a : Nat) (ha : a ≠ k) : alookup (ainsert k v l) a = alookup l a := by
  induction l with
  | nil =>
    rw [show ainsert k v ([] : List (Nat × β)) = [(k, v)] from rfl,
      alookup_cons, if_neg (fun hh => ha hh.symm)]
  | cons p rest ih =>
    rw [ainsert_cons]
    by_cases h : p.1 = k
    · rw [if_pos h, alookup_cons, if_neg (fun hh => ha hh.symm),
        alookup_cons, if_neg (h ▸ fun hh => ha hh.symm : ¬ p.1 = a)]
    · rw [if_neg h, alookup_cons, alookup_cons, ih]

theorem alookup_eq_none_of_not_mem {β : Type} (l : List (Nat × β)) (k : Nat)
    (h : k ∉ l.map Prod.fst) : alookup l k = none := by
  induction l with
  | nil => rfl
  | cons p rest ih =>
    simp only [List.map_cons, List.mem_cons] at h
    push_neg at h
    rw [alookup_cons, if_neg (fun hh => h.1 hh.symm), ih h.2]

theorem mem_keys_ainsert {β : Type} (k : Nat) (v : β) (l : List (Nat × β))
    (a : Nat) (h : a ∈ (ainsert k v l).map Prod.fst) :
    a = k ∨ a ∈ l.map Prod.fst := by
  induction l with
  | nil => simpa [ainsert] using h
  | cons p rest ih =>
    rw [ainsert_cons] at h
    by_cases hp : p.1 = k
    · rw [if_pos hp] at h
      simp only [List.map_cons, List.mem_cons] at h ⊢
      rcases h with h | h
      · exact Or.inl h
      · exact Or.inr (Or.inr h)
    · rw [if_neg hp] at h
      simp only [List.map_cons, List.mem_cons] at h ⊢
      rcases h with h | h
      · exact Or.inr (Or.inl h)
      · rcases ih h with h' | h'
        · exact Or.inl h'
        · exact Or.inr (Or.inr h')

theorem keys_ainsert_nodup {β : Type} (k : Nat) (v : β) (l : List (Nat × β))
    (h : (l.map Prod.fst).Nodup) : ((ainsert k v l).map Prod.fst).Nodup := by
  induction l with
  | nil => simp [ainsert]
  | cons p rest ih =>
    simp only [List.map_cons, List.nodup_cons] at h
    rw [ainsert_cons]
    by_cases hp : p.1 = k
    · rw [if_pos hp]
      simp only [List.map_cons, List.nodup_cons]
      exact ⟨hp ▸ h.1, h.2⟩
    · rw [if_neg hp]
      simp only [List.map_cons, List.nodup_cons]
      refine ⟨fun hmem => ?_, ih h.2⟩
      rcases mem_keys_ainsert k v rest p.1 hmem with h' | h'
      · exact hp h'
      · exact h.1 h'

theorem ainsert_ne_nil {β : Type} (k : Nat) (v : β) (l : List (Nat × β)) :
    ainsert k v l ≠ [] := by
  cases l with
  | nil => simp [ainsert]
  | cons p rest =>
    rw [ainsert_cons]
    by_cases hp : p.1 = k
    · rw [if_pos hp]; exact List.cons_ne_nil _ _
    · rw [if_neg hp]; exact List.cons_ne_nil _ _

/-! ## DAG insert theorems (C3) -/

/-- C3 (counterexample): address 99 is not a member of `committeeFour`,
yet `DAG::insert` accepts its certificate and changes the DAG — `insert`
performs no committee or parent-quorum validation at all. -/
theorem C3_counterexample :
    Committee.is_committee_member committeeFour 99 = false ∧
    DAG.insert DAG.new cert99 ≠ DAG.new ∧
    DAG.get_certificate_for_round_with_author (DAG.insert DAG.new cert99)
      5 99 = some cert99 := by
  refine ⟨by decide, by decide, by decide⟩

theorem alookup_graphInsert_author (r : Nat) (a : Addr) (c : Cert) (g : Graph) :
    (alookup (graphInsert r a c g) r).bind (fun m => alookup m a) = some c := by
  induction g with
  | nil =>
    simp [graphInsert, alookup_cons, alookup_nil]
  | cons p rest ih =>
    rcases p with ⟨r', m⟩
    by_cases h : r = r'
    · rw [graphInsert]
      simp only [if_pos h]
      rw [alookup_cons]
      simp [h.symm, alookup_ainsert_self]
    · by_cases h' : r < r'
      · rw [graphInsert]
        simp only [if_neg h, if_pos h']
        rw [alookup_cons, if_pos rfl]
        simp [alookup_cons, alookup_nil]
      · rw [graphInsert]
        simp only [if_neg h, if_neg h']
        rw [alookup_cons, if_neg (fun hh => h hh.symm)]
        exact ih

/-- C3 (amended): `DAG::insert` stores the certificate at
`(round, author)` unconditionally — it performs no committee-membership or
parent-quorum validation; those checks happen before certificates reach
the DAG. -/
theorem C3_insert_unconditional (d : DAG) (c : Cert) :
    DAG.get_certificate_for_round_with_author (d.insert c) c.round c.author
      = some c := by
  have h := alookup_graphInsert_author c.round c.author c d.graph
  simpa [DAG.get_certificate_for_round_with_author, DAG.insert, roundMap]
    using h

/-! ## Lookup through `filter` and `filterMap` -/

theorem alookup_filter_key {β : Type} (P : Nat → Bool) (l : List (Nat × β))
    (r : Nat) :
    alookup (l.filter (fun p => P p.1)) r =
      if P r then alookup l r else none := by
  induction l with
  | nil => cases hP : P r <;> simp [alookup_nil]
  | cons p rest ih =>
    rw [List.filter_cons]
    by_cases hpr : p.1 = r
    · subst hpr
      cases hP : P p.1 <;> simp [alookup_cons, ih, hP]
    · cases hP : P p.1 <;> simp [alookup_cons, hpr, ih]

theorem keys_filterMap_sublist (f : Nat × AuthorMap → Option (Nat × AuthorMap))
    (hf : ∀ p q, f p = some q → q.1 = p.1) (l : Graph) :
    ((l.filterMap f).map Prod.fst).Sublist (l.map Prod.fst) := by
  induction l with
  | nil => simp
  | cons p rest ih =>
    rw [List.filterMap_cons]
    cases hfp : f p with
    | none => exact ih.trans (List.sublist_cons_self _ _)
    | some q =>
      rw [List.map_cons, List.map_cons, hf p q hfp]
      exact ih.cons₂ _

theorem alookup_filterMap (f : Nat × AuthorMap → Option (Nat × AuthorMap))
    (hf : ∀ p q, f p = some q → q.1 = p.1) (l : Graph)
    (hl : (l.map Prod.fst).Nodup) (r : Nat) :
    alookup (l.filterMap f) r =
      (alookup l r).bind (fun m => (f (r, m)).map Prod.snd) := by
  induction l with
  | nil => rfl
  | cons p rest ih =>
    simp only [List.map_cons, List.nodup_cons] at hl
    rw [List.filterMap_cons]
    by_cases hpr : p.1 = r
    · have hp : p = (r, p.2) := by
        rw [← hpr]
      cases hfp : f p with
      | none =>
        have hnone : alookup (rest.filterMap f) r = none := by
          refine alookup_eq_none_of_not_mem _ _ (fun hmem => ?_)
          exact hl.1 (hpr ▸ (keys_filterMap_sublist f hf rest).subset hmem)
        rw [hnone, alookup_cons, if_pos hpr, Option.some_bind, ← hp, hfp]
        rfl
      | some q =>
        rw [alookup_cons, if_pos (hf p q hfp ▸ hpr), alookup_cons,
          if_pos hpr, Option.some_bind, ← hp, hfp]
        rfl
    · cases hfp : f p with
      | none =>
        rw [ih hl.2, alookup_cons, if_neg hpr]
      | some q =>
        rw [alookup_cons, if_neg (fun hh => hpr ((hf p q hfp) ▸ hh)),
          ih hl.2, alookup_cons, if_neg hpr]

theorem alookup_mapRemove_self (a : Addr) (m : AuthorMap) :
    alookup (mapRemove a m) a = none := by
  induction m with
  | nil => rfl
  | cons p rest ih =>
    rw [mapRemove, List.filter_cons]
    by_cases hp : p.1 = a
    · simpa [hp, mapRemove] using ih
    · rw [if_pos (by simp [hp]), alookup_cons,
        if_neg hp]
      simpa [mapRemove] using ih

theorem alookup_mapRemove_ne (a : Addr) (m : AuthorMap) (b : Addr)
    (hb : b ≠ a) : alookup (mapRemove a m) b = alookup m b := by
  induction m with
  | nil => rfl
  | cons p rest ih =>
    rw [mapRemove, List.filter_cons]
    by_cases hp : p.1 = a
    · rw [if_neg (by simp [hp]), alookup_cons,
        if_neg (fun (hh : p.1 = b) => hb (hh ▸ hp))]
      simpa [mapRemove] using ih
    · rw [if_pos (by simp [hp]), alookup_cons, alookup_cons]
      by_cases hpb : p.1 = b
      · rw [if_pos hpb, if_pos hpb]
      · rw [if_neg hpb, if_neg hpb]
        simpa [mapRemove] using ih

/-! ## The committed-authors bookkeeping -/

theorem alookup_lcaInsert_self (a : Addr) (r : Nat) (l : List (Addr × Nat)) :
    alookup (lcaInsert a r l) a =
      some (max r ((alookup l a).getD r)) := by
  induction l with
  | nil => simp [lcaInsert, alookup_cons', alookup_nil]
  | cons p rest ih =>
    rcases p with ⟨b, v⟩
    rw [lcaInsert]
    by_cases hb : b = a
    · subst hb
      rw [if_pos rfl, alookup_cons', if_pos rfl, alookup_cons', if_pos rfl,
        Option.getD_some]
      have hmax : (if v < r then r else v) = max r v := by split <;> omega
      rw [hmax]
    · rw [if_neg hb, alookup_cons', if_neg hb, alookup_cons', if_neg hb, ih]

theorem alookup_lcaInsert_ne (a : Addr) (r : Nat) (l : List (Addr × Nat))
    (b : Addr) (hb : b ≠ a) :
    alookup (lcaInsert a r l) b = alookup l b := by
  induction l with
  | nil => simp [lcaInsert, alookup_cons', Ne.symm hb]
  | cons p rest ih =>
    rcases p with ⟨b', v⟩
    rw [lcaInsert]
    by_cases hb' : b' = a
    · rw [if_pos hb', alookup_cons', alookup_cons',
        if_neg (fun (hh : b' = b) => hb (hh ▸ hb')),
        if_neg (fun (hh : b' = b) => hb (hh ▸ hb'))]
    · rw [if_neg hb', alookup_cons', alookup_cons']
      by_cases hbb : b' = b
      · rw [if_pos hbb, if_pos hbb]
      · rw [if_neg hbb, if_neg hbb, ih]

theorem lcaInsert_ne_nil (a : Addr) (r : Nat) (l : List (Addr × Nat)) :
    lcaInsert a r l ≠ [] := by
  cases l with
  | nil => simp [lcaInsert]
  | cons p rest =>
    rcases p with ⟨b, v⟩
    rw [lcaInsert]
    by_cases hb : b = a
    · rw [if_pos hb]; exact List.cons_ne_nil _ _
    · rw [if_neg hb]; exact List.cons_ne_nil _ _

theorem le_maxValues (l : List (Addr × Nat)) (p : Addr × Nat) (hp : p ∈ l) :
    p.2 ≤ maxValues l := by
  induction l with
  | nil => cases hp
  | cons q rest ih =>
    rcases List.mem_cons.mp hp with h | h
    · subst h
      exact Nat.le_max_left _ _ |>.trans_eq rfl
    · exact (ih h).trans (Nat.le_max_right _ _)

theorem maxValues_mem (l : List (Addr × Nat)) (hl : l ≠ []) :
    ∃ p ∈ l, p.2 = maxValues l := by
  induction l with
  | nil => exact absurd rfl hl
  | cons q rest ih =>
    cases rest with
    | nil =>
      exact ⟨q, List.mem_cons_self _ _, by simp [maxValues]⟩
    | cons q' rest' =>
      rcases ih (List.cons_ne_nil _ _) with ⟨p, hp, hpv⟩
      by_cases hq : maxValues (q' :: rest') ≤ q.2
      · refine ⟨q, List.mem_cons_self _ _, ?_⟩
        show q.2 = max q.2 (maxValues (q' :: rest'))
        omega
      · refine ⟨p, List.mem_cons_of_mem _ hp, ?_⟩
        show p.2 = max q.2 (maxValues (q' :: rest'))
        omega

/-! ## Structural invariants of `graphInsert` -/

theorem mem_keys_graphInsert (r : Nat) (a : Addr) (c : Cert) (g : Graph)
    (x : Nat) (h : x ∈ (graphInsert r a c g).map Prod.fst) :
    x = r ∨ x ∈ g.map Prod.fst := by
  induction g with
  | nil => simpa [graphInsert] using h
  | cons p rest ih =>
    rcases p with ⟨r', m⟩
    rw [graphInsert] at h
    by_cases h1 : r = r'
    · rw [if_pos h1] at h
      simp only [List.map_cons, List.mem_cons] at h ⊢
      rcases h with h | h
      · exact Or.inr (Or.inl h)
      · exact Or.inr (Or.inr h)
    · rw [if_neg h1] at h
      by_cases h2 : r < r'
      · rw [if_pos h2] at h
        simp only [List.map_cons, List.mem_cons] at h ⊢
        rcases h with h | h | h
        · exact Or.inl h
        · exact Or.inr (Or.inl h)
        · exact Or.inr (Or.inr h)
      · rw [if_neg h2] at h
        simp only [List.map_cons, List.mem_cons] at h ⊢
        rcases h with h | h
        · exact Or.inr (Or.inl h)
        · rcases ih h with h' | h'
          · exact Or.inl h'
          · exact Or.inr (Or.inr h')

theorem mem_graphInsert (r : Nat) (a : Addr) (c : Cert) (g : Graph)
    (p : Nat × AuthorMap) (hp : p ∈ graphInsert r a c g) :
    p ∈ g ∨ p = (r, [(a, c)]) ∨
      ∃ m, p = (r, ainsert a c m) ∧ (r, m) ∈ g := by
  induction g with
  | nil =>
    simp only [graphInsert, List.mem_singleton] at hp
    exact Or.inr (Or.inl hp)
  | cons q rest ih =>
    rcases q with ⟨r', m'⟩
    rw [graphInsert] at hp
    by_cases h1 : r = r'
    · rw [if_pos h1] at hp
      rcases List.mem_cons.mp hp with h | h
      · refine Or.inr (Or.inr ⟨m', ?_, ?_⟩)
        · rw [h, h1]
        · rw [h1]
          exact List.mem_cons_self _ _
      · exact Or.inl (List.mem_cons_of_mem _ h)
    · rw [if_neg h1] at hp
      by_cases h2 : r < r'
      · rw [if_pos h2] at hp
        rcases List.mem_cons.mp hp with h | h
        · exact Or.inr (Or.inl h)
        · exact Or.inl h
      · rw [if_neg h2] at hp
        rcases List.mem_cons.mp hp with h | h
        · exact Or.inl (h ▸ List.mem_cons_self _ _)
        · rcases ih h with h' | h' | ⟨m, hm, hmem⟩
          · exact Or.inl (List.mem_cons_of_mem _ h')
          · exact Or.inr (Or.inl h')
          · exact Or.inr (Or.inr ⟨m, hm, List.mem_cons_of_mem _ hmem⟩)

theorem keys_graphInsert_sorted (r : Nat) (a : Addr) (c : Cert) (g : Graph)
    (h : (g.map Prod.fst).Pairwise (· < ·)) :
    ((graphInsert r a c g).map Prod.fst).Pairwise (· < ·) := by
  induction g with
  | nil => simp [graphInsert]
  | cons p rest ih =>
    rcases p with ⟨r', m⟩
    simp only [List.map_cons, List.pairwise_cons] at h
    rw [graphInsert]
    by_cases h1 : r = r'
    · rw [if_pos h1]
      simp only [List.map_cons, List.pairwise_cons]
      exact h
    · rw [if_neg h1]
      by_cases h2 : r < r'
      · rw [if_pos h2]
        simp only [List.map_cons, List.pairwise_cons]
        refine ⟨?_, h⟩
        intro x hx
        rcases List.mem_cons.mp hx with hx | hx
        · omega
        · have := h.1 x hx
          omega
      · rw [if_neg h2]
        simp only [List.map_cons, List.pairwise_cons]
        refine ⟨?_, ih h.2⟩
        intro x hx
        rcases mem_keys_graphInsert r a c rest x hx with hx | hx
        · omega
        · exact h.1 x hx

theorem graphInsert_inner (r : Nat) (a : Addr) (c : Cert) (g : Graph)
    (hin : ∀ p ∈ g, (p.2.map Prod.fst).Nodup ∧ p.2 ≠ [])
    (p : Nat × AuthorMap) (hp : p ∈ graphInsert r a c g) :
    (p.2.map Prod.fst).Nodup ∧ p.2 ≠ [] := by
  rcases mem_graphInsert r a c g p hp with h | h | ⟨m, hm, hmem⟩
  · exact hin p h
  · subst h
    exact ⟨by simp, by simp⟩
  · subst hm
    exact ⟨keys_ainsert_nodup a c m (hin (r, m) hmem).1,
      ainsert_ne_nil a c m⟩

/-! ## Structural invariants of `commit` -/

theorem commit_step_key (c : Cert) (p q : Nat × AuthorMap)
    (hq : (if c.round < p.1 then some p
      else if (mapRemove c.author p.2).isEmpty then none
      else some (p.1, mapRemove c.author p.2)) = some q) :
    q.1 = p.1 := by
  by_cases h1 : c.round < p.1
  · rw [if_pos h1] at hq
    cases hq
    rfl
  · rw [if_neg h1] at hq
    by_cases h2 : (mapRemove c.author p.2).isEmpty
    · rw [if_pos h2] at hq
      cases hq
    · rw [if_neg h2] at hq
      cases hq
      rfl

theorem commit_graph_eq (d : DAG) (c : Cert) (gc : Nat) :
    (d.commit c gc).graph =
      (d.graph.filter (fun p =>
          decide ((d.commit c gc).last_committed_round < p.1 + gc))).filterMap
        (fun p =>
          if c.round < p.1 then some p
          else if (mapRemove c.author p.2).isEmpty then none
          else some (p.1, mapRemove c.author p.2)) := rfl

theorem keys_commit_sublist (d : DAG) (c : Cert) (gc : Nat) :
    (((d.commit c gc).graph).map Prod.fst).Sublist (d.graph.map Prod.fst) := by
  rw [commit_graph_eq]
  exact (keys_filterMap_sublist _ (commit_step_key c) _).trans
    ((List.filter_sublist _).map Prod.fst)

theorem commit_inner (d : DAG) (c : Cert) (gc : Nat)
    (hin : ∀ p ∈ d.graph, (p.2.map Prod.fst).Nodup ∧ p.2 ≠ [])
    (p : Nat × AuthorMap) (hp : p ∈ (d.commit c gc).graph) :
    (p.2.map Prod.fst).Nodup ∧ p.2 ≠ [] := by
  rw [commit_graph_eq] at hp
  rcases List.mem_filterMap.mp hp with ⟨p₀, hp₀, hstep⟩
  have hp₀g : p₀ ∈ d.graph := (List.mem_filter.mp hp₀).1
  by_cases h1 : c.round < p₀.1
  · rw [if_pos h1] at hstep
    injection hstep with h3
    subst h3
    exact hin _ hp₀g
  · rw [if_neg h1] at hstep
    by_cases h2 : (mapRemove c.author p₀.2).isEmpty
    · rw [if_pos h2] at hstep
      cases hstep
    · rw [if_neg h2] at hstep
      injection hstep with h3
      subst h3
      constructor
      · exact List.Sublist.nodup ((List.filter_sublist _).map Prod.fst)
          (hin p₀ hp₀g).1
      · simpa [List.isEmpty_iff] using h2

/-- C9: in every DAG state reachable by `insert` / `commit` sequences, the
graph maps each round to at most one entry, each round's map holds at most
one certificate per author, every round still present is non-empty, and an
insert for an existing `(round, author)` pair replaces the certificate. -/
theorem C9_dag_invariants (d : DAG) (h : Reachable d) :
    ((d.graph.map Prod.fst).Nodup ∧
      (∀ p ∈ d.graph, (p.2.map Prod.fst).Nodup ∧ p.2 ≠ []) ∧
      ∀ c : Cert, DAG.get_certificate_for_round_with_author (d.insert c)
        c.round c.author = some c) := by
  have strong : (d.graph.map Prod.fst).Pairwise (· < ·) ∧
      ∀ p ∈ d.graph, (p.2.map Prod.fst).Nodup ∧ p.2 ≠ [] := by
    induction h with
    | init => exact ⟨List.Pairwise.nil, fun p hp => absurd hp (by simp [DAG.new])⟩
    | insert d c _ ih =>
      exact ⟨keys_graphInsert_sorted _ _ _ _ ih.1,
        graphInsert_inner _ _ _ _ ih.2⟩
    | commit d c gc _ ih =>
      refine ⟨List.Pairwise.sublist (keys_commit_sublist d c gc) ih.1,
        commit_inner d c gc ih.2⟩
  refine ⟨strong.1.imp (fun hlt => Nat.ne_of_lt hlt), strong.2, fun c => ?_⟩
  have hl := alookup_graphInsert_author c.round c.author c d.graph
  simpa [DAG.get_certificate_for_round_with_author, DAG.insert, roundMap]
    using hl

/-- C9 witness: the invariants hold in the state reached by inserting at
rounds 2 and 3 and committing the round-3 certificate. -/
theorem roundMap_commit (d : DAG) (c : Cert) (gc : Nat)
    (h : (d.graph.map Prod.fst).Nodup) (r : Nat) :
    roundMap (d.commit c gc) r =
      if (d.commit c gc).last_committed_round < r + gc then
        (roundMap d r).bind (fun m =>
          if c.round < r then some m
          else if (mapRemove c.author m).isEmpty then none
          else some (mapRemove c.author m))
      else none := by
  have hg1 : ((d.graph.filter (fun p =>
      decide ((d.commit c gc).last_committed_round < p.1 + gc))).map
        Prod.fst).Nodup :=
    List.Sublist.nodup ((List.filter_sublist _).map Prod.fst) h
  rw [roundMap, commit_graph_eq,
    alookup_filterMap _ (commit_step_key c) _ hg1 r,
    alookup_filter_key
      (fun k => decide ((d.commit c gc).last_committed_round < k + gc))
      d.graph r]
  by_cases hgc : (d.commit c gc).last_committed_round < r + gc
  · rw [if_pos (by simpa using hgc), if_pos hgc]
    cases halo : alookup d.graph r with
    | none =>
      rw [roundMap, halo]
      rfl
    | some m =>
      rw [roundMap, halo, Option.some_bind, Option.some_bind]
      by_cases hcr : c.round < r
      · rw [if_pos hcr, if_pos hcr]
        rfl
      · rw [if_neg hcr, if_neg hcr]
        by_cases he : (mapRemove c.author m).isEmpty
        · rw [if_pos he, if_pos he]
          rfl
        · rw [if_neg he, if_neg he]
          rfl
  · rw [if_neg (by simpa using hgc), if_neg hgc]
    rfl

/-- C2 (counterexample): committing the round-3 certificate of `dagTwo`
with `max_gc_rounds = 1` sets `last_committed_round = 3` and evicts round
2, although `2 < 3 - 1` is false — the code evicts the rounds `r` with
`r + max_gc_rounds ≤ last_committed_round`, one more round than the claimed
"strictly below `last_committed_round - max_gc_rounds`". -/
theorem C2_counterexample :
    (dagTwo.commit certA3 1).last_committed_round = 3 ∧
    roundMap dagTwo 2 = some [(1, certB2)] ∧
    roundMap (dagTwo.commit certA3 1) 2 = none ∧
    ¬ (2 < 3 - 1) := by
  refine ⟨by decide, by decide, by decide, by decide⟩

/-- C2 (amended): `commit(cert, max_gc_rounds)` records `cert.author` as
committed at `max` of its previous round and `cert.round` (other authors
unchanged); sets `last_committed_round` to the maximum value in
`last_committed_authors`; and the retained graph is characterized by:
round `r` survives iff `last_committed_round < r + max_gc_rounds` (so the
evicted rounds are exactly those with `r + max_gc_rounds ≤
last_committed_round`, one more than the claimed strict bound) and, when
`r ≤ cert.round`, the author's entry is removed and the round dropped if it
becomes empty.  In particular every retained round `≤ cert.round` lacks
`cert.author`. -/
theorem C2_commit_spec (d : DAG) (c : Cert) (gc : Nat)
    (h : (d.graph.map Prod.fst).Nodup) :
    (alookup (d.commit c gc).last_committed_authors c.author =
        some (max c.round
          ((alookup d.last_committed_authors c.author).getD c.round))) ∧
    (∀ a, a ≠ c.author →
        alookup (d.commit c gc).last_committed_authors a =
          alookup d.last_committed_authors a) ∧
    (∀ p ∈ (d.commit c gc).last_committed_authors,
        p.2 ≤ (d.commit c gc).last_committed_round) ∧
    (∃ p ∈ (d.commit c gc).last_committed_authors,
        p.2 = (d.commit c gc).last_committed_round) ∧
    (∀ r m, roundMap (d.commit c gc) r = some m → r ≤ c.round →
        alookup m c.author = none) ∧
    (∀ r, roundMap (d.commit c gc) r =
        if (d.commit c gc).last_committed_round < r + gc then
          (roundMap d r).bind (fun m =>
            if c.round < r then some m
            else if (mapRemove c.author m).isEmpty then none
            else some (mapRemove c.author m))
        else none) := by
  have hlca : (d.commit c gc).last_committed_authors =
      lcaInsert c.author c.round d.last_committed_authors := rfl
  refine ⟨?_, ?_, ?_, ?_, ?_, roundMap_commit d c gc h⟩
  · rw [hlca, alookup_lcaInsert_self]
  · intro a ha
    rw [hlca, alookup_lcaInsert_ne _ _ _ _ ha]
  · intro p hp
    exact le_maxValues _ _ hp
  · exact maxValues_mem _ (lcaInsert_ne_nil _ _ _)
  · intro r m hm hr
    rw [roundMap_commit d c gc h r] at hm
    by_cases hgc : (d.commit c gc).last_committed_round < r + gc
    · rw [if_pos hgc] at hm
      cases halo : roundMap d r with
      | none => rw [halo] at hm; cases hm
      | some m₀ =>
        rw [halo, Option.some_bind, if_neg (by omega)] at hm
        by_cases he : (mapRemove c.author m₀).isEmpty
        · rw [if_pos he] at hm
          cases hm
        · rw [if_neg he] at hm
          injection hm with hm
          subst hm
          exact alookup_mapRemove_self c.author m₀
    · rw [if_neg hgc] at hm
      cases hm

/-- C2 witness: the characterization applied to the spec's
garbage-collection scenario — certificates at rounds {2, 3, 4}, committing
the round-3 certificate with `max_gc_rounds = 1` evicts round 2 entirely,
drops round 3 (its only author is the committed one), and keeps round 4. -/
theorem C2_witness :
    roundMap (dagThree.commit certA3 1) 2 = none ∧
    roundMap (dagThree.commit certA3 1) 3 = none ∧
    roundMap (dagThree.commit certA3 1) 4 = some [(2, certC4)] := by
  have h := C2_commit_spec dagThree certA3 1 (by decide)
  refine ⟨?_, ?_, ?_⟩ <;> rw [h.2.2.2.2.2 _] <;> decide

theorem C9_witness :
    (((((DAG.new.insert certB2).insert certA3).commit certA3 10).graph.map
        Prod.fst).Nodup ∧
      (∀ p ∈ (((DAG.new.insert certB2).insert certA3).commit certA3 10).graph,
        (p.2.map Prod.fst).Nodup ∧ p.2 ≠ []) ∧
      ∀ c : Cert,
        DAG.get_certificate_for_round_with_author
          (((((DAG.new.insert certB2).insert certA3).commit certA3 10)).insert c)
          c.round c.author = some c) :=
  C9_dag_invariants _
    (Reachable.commit _ _ _ (Reachable.insert _ _ (Reachable.insert _ _
      Reachable.init)))

/-! ## Worker mempool theorems (C7, C10) -/

theorem contains_transmission_pending (L : LedgerSvc) (w : WorkerState)
    (id : TId) (ps : List TId) :
    Worker.contains_transmission L { w with pending := ps } id =
      Worker.contains_transmission L w id := rfl

/-- C7 (counterexample): a transmission absent from all four views and
failing both validators is nonetheless inserted into the ready queue by the
peer ingestion path — `process_transmission_from_peer` performs no
validation. -/
theorem C7_counterexample :
    Worker.contains_transmission ledgerRejectAll workerEmpty 7 = false ∧
    ledgerRejectAll.checkSolutionOk 7 1 = false ∧
    ledgerRejectAll.checkTransactionOk 7 1 = false ∧
    (Worker.process_transmission_from_peer ledgerRejectAll workerEmpty 7
      1).ready = [(7, 1)] := by
  refine ⟨by decide, by decide, by decide, by decide⟩

/-- C7 (amended): every ingestion path inserts into the ready queue only if
the ID is absent from all four views; the local-submitter paths
(`process_unconfirmed_solution` / `process_unconfirmed_transaction`)
additionally validate via the ledger interface, and a validation failure
returns an error and leaves the ready queue unchanged; the peer (and
reconciliation) path `process_transmission_from_peer` inserts without any
validation. -/
theorem C7_ingestion_spec (L : LedgerSvc) (w : WorkerState) (id : TId)
    (t : Tm) :
    (Worker.contains_transmission L w id = true →
        Worker.process_transmission_from_peer L w id t = w ∧
        (Worker.process_unconfirmed_solution L w id t).2 = false ∧
        (Worker.process_unconfirmed_solution L w id t).1.ready = w.ready ∧
        (Worker.process_unconfirmed_transaction L w id t).2 = false ∧
        (Worker.process_unconfirmed_transaction L w id t).1.ready
          = w.ready) ∧
    (Worker.contains_transmission L w id = false →
        (Worker.process_transmission_from_peer L w id t).ready
          = ainsert id t w.ready ∧
        (L.checkSolutionOk id t = false →
            (Worker.process_unconfirmed_solution L w id t).2 = false ∧
            (Worker.process_unconfirmed_solution L w id t).1.ready
              = w.ready) ∧
        (L.checkSolutionOk id t = true →
            (Worker.process_unconfirmed_solution L w id t).2 = true ∧
            (Worker.process_unconfirmed_solution L w id t).1.ready
              = ainsert id t w.ready) ∧
        (L.checkTransactionOk id t = false →
            (Worker.process_unconfirmed_transaction L w id t).2 = false ∧
            (Worker.process_unconfirmed_transaction L w id t).1.ready
              = w.ready) ∧
        (L.checkTransactionOk id t = true →
            (Worker.process_unconfirmed_transaction L w id t).2 = true ∧
            (Worker.process_unconfirmed_transaction L w id t).1.ready
              = ainsert id t w.ready)) := by
  constructor
  · intro hc
    refine ⟨?_, ?_, ?_, ?_, ?_⟩
    · simp [Worker.process_transmission_from_peer, hc]
    · simp [Worker.process_unconfirmed_solution,
        contains_transmission_pending, hc]
    · simp [Worker.process_unconfirmed_solution,
        contains_transmission_pending, hc]
    · simp [Worker.process_unconfirmed_transaction,
        contains_transmission_pending, hc]
    · simp [Worker.process_unconfirmed_transaction,
        contains_transmission_pending, hc]
  · intro hc
    refine ⟨?_, ?_, ?_, ?_, ?_⟩
    · simp [Worker.process_transmission_from_peer, hc]
    · intro hv
      constructor <;>
        simp [Worker.process_unconfirmed_solution,
          contains_transmission_pending, hc, hv]
    · intro hv
      constructor <;>
        simp [Worker.process_unconfirmed_solution,
          contains_transmission_pending, hc, hv]
    · intro hv
      constructor <;>
        simp [Worker.process_unconfirmed_transaction,
          contains_transmission_pending, hc, hv]
    · intro hv
      constructor <;>
        simp [Worker.process_unconfirmed_transaction,
          contains_transmission_pending, hc, hv]

/-- C7 witness: the amended behaviour observed on the empty worker with the
reject-everything ledger: the peer path inserts transmission (7, 1) despite
failing validators, and both local paths reject it. -/
theorem C7_witness :
    ((Worker.process_transmission_from_peer ledgerRejectAll workerEmpty 7
        1).ready = ainsert 7 1 workerEmpty.ready) ∧
    ((Worker.process_unconfirmed_solution ledgerRejectAll workerEmpty 7
        1).2 = false) ∧
    ((Worker.process_unconfirmed_solution ledgerRejectAll workerEmpty 7
        1).1.ready = workerEmpty.ready) ∧
    ((Worker.process_unconfirmed_transaction ledgerRejectAll workerEmpty 7
        1).2 = false) ∧
    ((Worker.process_unconfirmed_transaction ledgerRejectAll workerEmpty 7
        1).1.ready = workerEmpty.ready) := by
  have h := (C7_ingestion_spec ledgerRejectAll workerEmpty 7 1).2 (by decide)
  exact ⟨h.1, (h.2.1 (by decide)).1, (h.2.1 (by decide)).2,
    (h.2.2.2.1 (by decide)).1, (h.2.2.2.1 (by decide)).2⟩

/-- C10: `get_transmission` serves from the ready queue, then storage, then
the proposed batch, in that order, and never consults the ledger: when the
three local views lack the ID, the result is `none` even for an ID the
ledger holds (for which `contains_transmission` still answers `true`). -/
theorem C10_get_transmission_spec (w : WorkerState) (L : LedgerSvc)
    (id : TId) :
    (∀ t, alookup w.ready id = some t →
        Worker.get_transmission w id = some t) ∧
    (alookup w.ready id = none → ∀ t, alookup w.storage id = some t →
        Worker.get_transmission w id = some t) ∧
    (alookup w.ready id = none → alookup w.storage id = none →
        Worker.get_transmission w id
          = w.proposedBatch.bind (fun p => alookup p id)) ∧
    (alookup w.ready id = none → alookup w.storage id = none →
        w.proposedBatch.bind (fun p => alookup p id) = none →
        Worker.get_transmission w id = none ∧
        (L.containsTransmission id = true →
            Worker.contains_transmission L w id = true)) := by
  refine ⟨?_, ?_, ?_, ?_⟩
  · intro t ht
    simp [Worker.get_transmission, ht]
  · intro h1 t ht
    simp [Worker.get_transmission, h1, ht]
  · intro h1 h2
    cases hp : w.proposedBatch <;>
      simp [Worker.get_transmission, h1, h2, hp]
  · intro h1 h2 h3
    constructor
    · cases hp : w.proposedBatch with
      | none => simp [Worker.get_transmission, h1, h2, hp]
      | some p =>
        rw [hp, Option.some_bind] at h3
        simp [Worker.get_transmission, h1, h2, hp, h3]
    · intro hl
      simp [Worker.contains_transmission, hl]

/-- C10 witness: transmission ID 3 is present solely in the ledger; the
worker's `get_transmission` yields `none` although `contains_transmission`
answers `true`. -/
theorem C10_witness :
    Worker.get_transmission workerEmpty 3 = none ∧
    (ledgerOnly3.containsTransmission 3 = true →
        Worker.contains_transmission ledgerOnly3 workerEmpty 3 = true) :=
  (C10_get_transmission_spec workerEmpty ledgerOnly3 3).2.2.2 rfl rfl rfl

/-! ## Execution bridge theorems (C5, C6) -/

/-- C5: whenever `handle_consensus_output` proposes a block on which
`check_next_block` fails, the memory pool is cleared,
`advance_to_next_block` is never invoked, and no `NewBlock` is broadcast. -/
theorem C5_failed_check_never_advances (K : AleoFacade) (pp la : Addr)
    (bs : List (List (List Tx))) (b : Block)
    (hp : (handle_consensus_output K pp la bs).proposed = some b)
    (hc : K.checkNextOk b = false) :
    (handle_consensus_output K pp la bs).clearedMemoryPool = true ∧
    (handle_consensus_output K pp la bs).advanceCalled = false ∧
    (handle_consensus_output K pp la bs).broadcast = none := by
  by_cases h1 : bs.isEmpty
  · simp [handle_consensus_output, h1, noOutcome] at hp
  · by_cases h2 : pp = la
    · by_cases h3 : (collectValidTxs K bs).isEmpty
      · simp [handle_consensus_output, h1, h2, h3, noOutcome] at hp
      · cases hb : K.proposeNextBlock with
        | none =>
          simp [handle_consensus_output, h1, h2, h3, hb, noOutcome] at hp
        | some b' =>
          by_cases h4 : K.checkNextOk b' = true
          · have hb' : b' = b := by
              by_cases h5 : K.advanceOk b' = true <;>
                simpa [handle_consensus_output, h1, h2, h3, hb, h4, h5]
                  using hp
            rw [hb', hc] at h4
            cases h4
          · refine ⟨?_, ?_, ?_⟩ <;>
              simp [handle_consensus_output, h1, h2, h3, hb, h4]
    · simp [handle_consensus_output, h1, h2, noOutcome] at hp

/-- C5 witness: a facade that admits every transaction, proposes block 42
and fails `check_next_block` on it; the bridge clears the pool and neither
advances nor broadcasts. -/
theorem C5_witness :
    (handle_consensus_output
        ⟨fun _ => true, some 42, fun _ => false, fun _ => true⟩ 0 0
        [[[1]]]).clearedMemoryPool = true ∧
    (handle_consensus_output
        ⟨fun _ => true, some 42, fun _ => false, fun _ => true⟩ 0 0
        [[[1]]]).advanceCalled = false ∧
    (handle_consensus_output
        ⟨fun _ => true, some 42, fun _ => false, fun _ => true⟩ 0 0
        [[[1]]]).broadcast = none :=
  C5_failed_check_never_advances
    ⟨fun _ => true, some 42, fun _ => false, fun _ => true⟩ 0 0 [[[1]]] 42
    (by decide) (by decide)

/-- C6: `handle_consensus_output` proposes, advances and broadcasts only on
the node whose primary key is the sub-DAG leader's author and only when at
least one transaction was admitted to the mempool; an output with no
batches or no valid transactions yields no proposal and no broadcast, and a
non-leader run has no effect at all. -/
theorem C6_leader_only_production (K : AleoFacade) (pp la : Addr)
    (bs : List (List (List Tx))) :
    ((handle_consensus_output K pp la bs).proposed ≠ none →
        pp = la ∧ (handle_consensus_output K pp la bs).validTxs ≠ []) ∧
    ((handle_consensus_output K pp la bs).advanced = true →
        pp = la ∧ (handle_consensus_output K pp la bs).validTxs ≠ []) ∧
    ((handle_consensus_output K pp la bs).broadcast ≠ none →
        pp = la ∧ (handle_consensus_output K pp la bs).validTxs ≠ []) ∧
    (bs = [] → handle_consensus_output K pp la bs = noOutcome) ∧
    ((handle_consensus_output K pp la bs).validTxs = [] →
        (handle_consensus_output K pp la bs).proposed = none ∧
        (handle_consensus_output K pp la bs).broadcast = none) ∧
    (pp ≠ la → handle_consensus_output K pp la bs = noOutcome) := by
  by_cases h1 : bs.isEmpty
  · have hval : handle_consensus_output K pp la bs = noOutcome := by
      simp [handle_consensus_output, h1]
    rw [hval]
    simp [noOutcome]
  · have hne : ¬ bs = [] := fun hh => h1 (by simp [hh])
    by_cases h2 : pp = la
    · by_cases h3 : (collectValidTxs K bs).isEmpty
      · have hval : handle_consensus_output K pp la bs =
            { noOutcome with validTxs := collectValidTxs K bs } := by
          simp [handle_consensus_output, h1, h2, h3]
        rw [hval]
        simp [noOutcome, hne, h2]
      · have hvne : collectValidTxs K bs ≠ [] :=
          fun hh => h3 (by simp [hh])
        cases hb : K.proposeNextBlock with
        | none =>
          have hval : handle_consensus_output K pp la bs =
              { noOutcome with validTxs := collectValidTxs K bs } := by
            simp [handle_consensus_output, h1, h2, h3, hb]
          rw [hval]
          simp [noOutcome, hne, h2, hvne]
        | some b =>
          by_cases h4 : K.checkNextOk b = true
          · by_cases h5 : K.advanceOk b = true
            · have hval : handle_consensus_output K pp la bs =
                  { validTxs := collectValidTxs K bs,
                    proposed := some b, clearedMemoryPool := false,
                    advanceCalled := true, advanced := true,
                    broadcast := some b } := by
                simp [handle_consensus_output, h1, h2, h3, hb, h4, h5]
              rw [hval]
              simp [noOutcome, hne, h2, hvne]
            · have hval : handle_consensus_output K pp la bs =
                  { validTxs := collectValidTxs K bs,
                    proposed := some b, clearedMemoryPool := true,
                    advanceCalled := true, advanced := false,
                    broadcast := none } := by
                simp [handle_consensus_output, h1, h2, h3, hb, h4, h5]
              rw [hval]
              simp [noOutcome, hne, h2, hvne]
          · have hval : handle_consensus_output K pp la bs =
                { validTxs := collectValidTxs K bs,
                  proposed := some b, clearedMemoryPool := true,
                  advanceCalled := false, advanced := false,
                  broadcast := none } := by
              simp [handle_consensus_output, h1, h2, h3, hb, h4]
            rw [hval]
            simp [noOutcome, hne, h2, hvne]
    · have hval : handle_consensus_output K pp la bs = noOutcome := by
        simp [handle_consensus_output, h1, h2]
      rw [hval]
      simp [noOutcome, hne, h2]

/-- C6 witness: a non-leader run (primary 1, leader 0) of a facade that
would otherwise produce a block has no effect at all. -/
theorem C6_witness :
    handle_consensus_output
        ⟨fun _ => true, some 42, fun _ => true, fun _ => true⟩ 1 0
        [[[1]]] = noOutcome :=
  (C6_leader_only_production
    ⟨fun _ => true, some 42, fun _ => true, fun _ => true⟩ 1 0
    [[[1]]]).2.2.2.2.2 (by decide)

/-! ## Transaction-order check theorems (C4) -/

/-- C4 (counterexample): the previous consensus output carried only
transaction 5, the received block carries the sequence `[5, 9]` — a
sequence different from the canonically sorted intersection `[5]` — yet the
comparison via `zip` truncates to the shorter list, finds no mismatch, and
the validator advances (height 10 → 11) instead of rejecting. -/
theorem C4_counterexample :
    expectedTxs [5] [5, 9] = [5] ∧
    ([5, 9] : List Nat) ≠ [5] ∧
    new_block true (some [5]) [5, 9] true 10 =
      ⟨true, true, 11⟩ := by
  refine ⟨by decide, by decide, by decide⟩

/-- C4 (amended): when the block's transaction sequence differs from the
canonical sort of the intersection at some position within the common
length (the range compared by `zip`), the validator rejects the block:
`advance_to_next_block` is not invoked and the height is unchanged; when
`check_next_block` succeeded, the handler returns `false`.  (A block that
merely extends the expected sequence with extra transactions is not
caught.) -/
theorem C4_order_check (checkOk : Bool) (lastIds blockTxs : List Nat)
    (advOk : Bool) (ht : Nat) (i : Nat)
    (hi1 : i < blockTxs.length)
    (hi2 : i < (expectedTxs lastIds blockTxs).length)
    (hne : blockTxs.get ⟨i, hi1⟩ ≠ (expectedTxs lastIds blockTxs).get ⟨i, hi2⟩) :
    (new_block checkOk (some lastIds) blockTxs advOk ht).advanceCalled
      = false ∧
    (new_block checkOk (some lastIds) blockTxs advOk ht).height = ht ∧
    (checkOk = true →
      (new_block checkOk (some lastIds) blockTxs advOk ht).accepted
        = false) := by
  cases checkOk with
  | false => refine ⟨rfl, rfl, fun hh => by cases hh⟩
  | true =>
    have hbad : (blockTxs.zip (expectedTxs lastIds blockTxs)).any
        (fun p => !(p.1 == p.2)) = true := by
      have hlen : i < (blockTxs.zip (expectedTxs lastIds blockTxs)).length := by
        rw [List.length_zip]
        omega
      have hz : (blockTxs.zip (expectedTxs lastIds blockTxs)).get ⟨i, hlen⟩
          = (blockTxs.get ⟨i, hi1⟩,
             (expectedTxs lastIds blockTxs).get ⟨i, hi2⟩) := by
        simp [List.get_eq_getElem, List.getElem_zip]
      rw [List.any_eq_true]
      refine ⟨(blockTxs.zip (expectedTxs lastIds blockTxs)).get ⟨i, hlen⟩,
        List.get_mem _ _ _, ?_⟩
      rw [hz]
      simpa using hne
    refine ⟨?_, ?_, fun _ => ?_⟩ <;> simp [new_block, hbad]

/-- C4 witness: previous output {5, 9}, block sequence `[9, 5]` — a
mismatch at position 0 against the canonical order `[5, 9]` — is rejected
without advancing. -/
theorem C4_witness :
    (new_block true (some [5, 9]) [9, 5] true 10).advanceCalled = false ∧
    (new_block true (some [5, 9]) [9, 5] true 10).height = 10 ∧
    (true = true →
      (new_block true (some [5, 9]) [9, 5] true 10).accepted = false) :=
  C4_order_check true [5, 9] [9, 5] true 10 0 (by decide) (by decide)
    (by decide)

end SnarkOS
